import Mathlib

/-!
Verification of the page-replacement-policy evaluators of `src/policies.cpp`.

The five evaluators (`PRP_FIFO`, `PRP_OPT`, `PRP_RAND`, `PRP_LRU`,
`PRP_CLOCK`) are embedded shallowly: each C++ loop body becomes a step
function on an explicit state record, and the loop over the workload becomes
a structural recursion over the access list.  Machine integers are modelled
as `Int` (page ids, which are `int` in the source) and `Nat` (sizes, indices
and counters); the implicit `int → unsigned int` conversion at the capacity
argument is modelled explicitly by reduction modulo `2 ^ 32`.

Fallible operations return `Option`:
* `std::vector::at` out of range (which throws `std::out_of_range`),
* dereferencing `begin()` / `end()` of an empty container (undefined
  behaviour), and
* constructing `uniform_int_distribution(0, size - 1)` with `size == 0`
  (undefined behaviour)
are all modelled as `none`.

Container modelling decisions (each noted again at its definition):
* `std::unordered_set<int>` (Optimal) is modelled as a duplicate-free
  `List Int` in insertion order; its iteration order is unspecified in C++,
  so `*begin()` is modelled as the list head.  Facts proved about concrete
  eviction outcomes are checked to be independent of that order where they
  are used.
* `std::unordered_map<int, unsigned>` (LRU) is modelled as an association
  list in insertion order; the only order-sensitive operation, the
  minimum-timestamp scan, keeps the first strict minimum exactly as the
  C++ loop does.
* the random engine of `PRP_RAND` (seeded from `std::time(NULL)`) is
  modelled as an arbitrary draw stream `rng : Nat → Nat`; the k-th value
  produced by `uniform_int_distribution(0, size-1)` is modelled as
  `rng k % size`, which ranges over exactly the interval the distribution
  ranges over as `rng` ranges over all streams.
-/

namespace PolicyEval

/-- Page identifiers are C `int`s in the source. -/
abbrev Page := Int

/-- `static const int INVALID_PAGE = -1;` (policies.cpp line 12). -/
def INVALID_PAGE : Page := -1

/-! ## FIFO evaluator (`PRP_FIFO`) -/

/-- State of the `PRP_FIFO` loop: the slot vector `cachedPages`, the head
index `cachedPagesHead`, and the running `hits` counter. -/
structure FifoState where
  slots : List Page
  head : Nat
  hits : Nat
  deriving Repr, DecidableEq

/-- One iteration of the `PRP_FIFO` loop body for access `a`:
membership test via `std::count`, on a miss `cachedPages.at(head) = a`
(`none` models the `std::out_of_range` exception when `head` is not a valid
index, which happens exactly when `memsize == 0`), then
`head = (head + 1) % cachedPages.size()`. -/
def fifoStep (s : FifoState) (a : Page) : Option FifoState :=
  if a ∈ s.slots then
    some { s with hits := s.hits + 1 }
  else if s.head < s.slots.length then
    some { slots := s.slots.set s.head a,
           head := (s.head + 1) % s.slots.length,
           hits := s.hits }
  else
    none

/-- The `PRP_FIFO` loop over the workload. -/
def fifoRun : List Page → FifoState → Option FifoState
  | [], s => some s
  | a :: rest, s =>
    match fifoStep s a with
    | none => none
    | some s' => fifoRun rest s'

/-- `int PRP_FIFO(const vector<int>& workload, unsigned int memsize)`:
slots initialised to `memsize` copies of `INVALID_PAGE`, head `0`. -/
def PRP_FIFO (workload : List Page) (memsize : Nat) : Option Nat :=
  (fifoRun workload ⟨List.replicate memsize INVALID_PAGE, 0, 0⟩).map FifoState.hits

/-! ## Optimal evaluator (`PRP_OPT`) -/

/-- The `int` value of the C++ bool `workload[j] > 0` — the argument that
the source actually passes to `count` in
`replacement_canidiates.count(workload[j] > 0)` (precedence defect). -/
def gtZeroAsInt (a : Page) : Page := if 0 < a then 1 else 0

/-- The candidate-narrowing loop of `PRP_OPT`
(`for(; j < workload.size() && replacement_canidiates.size() > 1; j++)`):
while more than one candidate remains, if the set contains the *int value of
the bool* `workload[j] > 0` then erase `workload[j]`. -/
def narrowGo : List Page → List Page → List Page
  | [], cands => cands
  | a :: rest, cands =>
    if cands.length ≤ 1 then cands
    else if gtZeroAsInt a ∈ cands then narrowGo rest (cands.erase a)
    else narrowGo rest cands

/-- `std::unordered_set::insert`: no-op if present, else appended
(modelling iteration order as insertion order). -/
def insertSet (a : Page) (s : List Page) : List Page :=
  if a ∈ s then s else s ++ [a]

/-- State of the `PRP_OPT` loop: the resident set `pages_in_mem`
(duplicate-free list in insertion order) and the `hits` counter. -/
structure OptState where
  mem : List Page
  hits : Nat
  deriving Repr, DecidableEq

/-- One iteration of the `PRP_OPT` loop body.  `future` is the remaining
workload starting at the current access (the narrowing scan starts at
`j = i`).  On a full miss the victim is `*replacement_canidiates.begin()`,
modelled as the head of the narrowed candidate list; `none` models the
undefined behaviour of dereferencing `begin()` of an empty set (reached
exactly when `memsize == 0`). -/
def optStep (memsize : Nat) (future : List Page) (s : OptState) : Option OptState :=
  match future with
  | [] => some s
  | a :: _ =>
    if a ∈ s.mem then
      some { s with hits := s.hits + 1 }
    else if s.mem.length < memsize then
      some { s with mem := insertSet a s.mem }
    else
      match narrowGo future s.mem with
      | [] => none
      | v :: _ => some { s with mem := insertSet a (s.mem.erase v) }

/-- The `PRP_OPT` loop over the workload. -/
def optRun (memsize : Nat) : List Page → OptState → Option OptState
  | [], s => some s
  | a :: rest, s =>
    match optStep memsize (a :: rest) s with
    | none => none
    | some s' => optRun memsize rest s'

/-- `int PRP_OPT(const vector<int>& workload, unsigned int memsize)`. -/
def PRP_OPT (workload : List Page) (memsize : Nat) : Option Nat :=
  (optRun memsize workload ⟨[], 0⟩).map OptState.hits

/-! ## Random evaluator (`PRP_RAND`) -/

/-- State of the `PRP_RAND` loop: the resident vector `pages_in_mem`, the
number of random draws made so far, and the `hits` counter. -/
structure RandState where
  mem : List Page
  draws : Nat
  hits : Nat
  deriving Repr, DecidableEq

/-- One iteration of the `PRP_RAND` loop body.  The engine (seeded from
`std::time(NULL)` in the source) is abstracted as the draw stream `rng`;
the value of `uniform_int_distribution<int>(0, pages_in_mem.size()-1)`
applied to the engine is modelled as `rng s.draws % s.mem.length`.  `none`
models the undefined behaviour of that distribution when
`pages_in_mem.size() == 0` (reached exactly when `memsize == 0`). -/
def randStep (memsize : Nat) (rng : Nat → Nat) (s : RandState) (a : Page) :
    Option RandState :=
  if a ∈ s.mem then
    some { s with hits := s.hits + 1 }
  else if s.mem.length < memsize then
    some { s with mem := s.mem ++ [a] }
  else if s.mem.length = 0 then
    none
  else
    some { s with mem := s.mem.set (rng s.draws % s.mem.length) a, draws := s.draws + 1 }

/-- The `PRP_RAND` loop over the workload. -/
def randRun (memsize : Nat) (rng : Nat → Nat) : List Page → RandState → Option RandState
  | [], s => some s
  | a :: rest, s =>
    match randStep memsize rng s a with
    | none => none
    | some s' => randRun memsize rng rest s'

/-- `int PRP_RAND(const vector<int>& workload, unsigned int memsize)`,
parameterised by the abstract draw stream of its internal engine. -/
def PRP_RAND (workload : List Page) (memsize : Nat) (rng : Nat → Nat) : Option Nat :=
  (randRun memsize rng workload ⟨[], 0, 0⟩).map RandState.hits

/-! ## LRU evaluator (`PRP_LRU`) -/

/-- The victim scan of `PRP_LRU`: starting from `cache.begin()`, keep the
entry with the strictly smaller timestamp (so the first minimum in
iteration order wins, exactly as the C++ loop with `<` does).  `none` only
for an empty map, where the C++ loop is never entered. -/
def lruVictim : List (Page × Nat) → Option (Page × Nat)
  | [] => none
  | e :: rest => some (rest.foldl (fun best x => if x.2 < best.2 then x else best) e)

/-- Remove the first occurrence of entry `e` (the C++ `cache.erase(iter)`
removes exactly the entry the iterator points at; keys are unique, so the
first occurrence is that entry). -/
def eraseEntry (e : Page × Nat) : List (Page × Nat) → List (Page × Nat)
  | [] => []
  | x :: rest => if x = e then rest else x :: eraseEntry e rest

/-- The `while (cache.size() > memsize)` eviction loop of `PRP_LRU`,
written with fuel `n`; each iteration erases one present entry, so fuel
equal to the initial map size (as `lruShrink` passes) never runs out. -/
def lruShrinkGo (memsize : Nat) : Nat → List (Page × Nat) → List (Page × Nat)
  | 0, cache => cache
  | n + 1, cache =>
    if memsize < cache.length then
      match lruVictim cache with
      | none => cache
      | some e => lruShrinkGo memsize n (eraseEntry e cache)
    else
      cache

/-- The `while (cache.size() > memsize)` loop of `PRP_LRU`. -/
def lruShrink (memsize : Nat) (cache : List (Page × Nat)) : List (Page × Nat) :=
  lruShrinkGo memsize cache.length cache

/-- `cache.at(access) = time` on a hit: update the (unique) entry with this
key. -/
def lruUpdate (a : Page) (t : Nat) (cache : List (Page × Nat)) : List (Page × Nat) :=
  cache.map fun e => if e.1 = a then (e.1, t) else e

/-- State of the `PRP_LRU` loop: the map `cache` (association list in
insertion order), the loop index `time`, and the `hits` counter. -/
structure LruState where
  cache : List (Page × Nat)
  time : Nat
  hits : Nat
  deriving Repr, DecidableEq

/-- One iteration of the `PRP_LRU` loop body: on a miss
`cache.emplace(access, time)` then the shrink loop; on a hit `hits++` and
`cache.at(access) = time`.  Never fails. -/
def lruStep (memsize : Nat) (s : LruState) (a : Page) : LruState :=
  if s.cache.any (fun e => e.1 = a) then
    { cache := lruUpdate a s.time s.cache, time := s.time + 1, hits := s.hits + 1 }
  else
    { cache := lruShrink memsize (s.cache ++ [(a, s.time)]), time := s.time + 1,
      hits := s.hits }

/-- The `PRP_LRU` loop over the workload. -/
def lruRun (memsize : Nat) : List Page → LruState → LruState
  | [], s => s
  | a :: rest, s => lruRun memsize rest (lruStep memsize s a)

/-- `int PRP_LRU(const vector<int>& workload, unsigned int memsize)`. -/
def PRP_LRU (workload : List Page) (memsize : Nat) : Nat :=
  (lruRun memsize workload ⟨[], 0, 0⟩).hits

/-! ## Clock evaluator (`PRP_CLOCK`) -/

/-- `iter->second = true` on a hit: `std::find_if` stops at the first entry
with this page, and only that entry's use bit is set. -/
def clockTouch (a : Page) : List (Page × Bool) → List (Page × Bool)
  | [] => []
  | e :: rest => if e.1 = a then (e.1, true) :: rest else e :: clockTouch a rest

/-- The victim sweep of `PRP_CLOCK`, starting (as the source does) at
`cache.begin()`: clear use bits of the leading entries that have them set;
at the first entry with a clear use bit, overwrite it with `(a, true)`.
`none` means the sweep ran off the end (every use bit was set). -/
def clockSweepGo (a : Page) : List (Page × Bool) → Option (List (Page × Bool))
  | [] => none
  | e :: rest =>
    if e.2 then (clockSweepGo a rest).map (fun r => (e.1, false) :: r)
    else some ((a, true) :: rest)

/-- A full-cache miss of `PRP_CLOCK`: run the sweep; if it ran off the end,
every use bit has been cleared and `clockHand` is reset to `cache.begin()`,
whose entry is overwritten with `(a, true)`.  `none` models the undefined
behaviour of dereferencing `begin()` of an empty vector (reached exactly
when `memsize == 0`). -/
def clockEvict (a : Page) (cache : List (Page × Bool)) : Option (List (Page × Bool)) :=
  match clockSweepGo a cache with
  | some c => some c
  | none =>
    match cache with
    | [] => none
    | _ :: rest => some ((a, true) :: rest.map (fun e => (e.1, false)))

/-- State of the `PRP_CLOCK` loop: the entry vector `cache` and the `hits`
counter.  The sweep iterator `clockHand` is a local of the miss branch in
the source, so it is not part of the state. -/
structure ClockState where
  cache : List (Page × Bool)
  hits : Nat
  deriving Repr, DecidableEq

/-- One iteration of the `PRP_CLOCK` loop body. -/
def clockStep (memsize : Nat) (s : ClockState) (a : Page) : Option ClockState :=
  if s.cache.any (fun e => e.1 = a) then
    some { cache := clockTouch a s.cache, hits := s.hits + 1 }
  else if s.cache.length < memsize then
    some { s with cache := s.cache ++ [(a, true)] }
  else
    match clockEvict a s.cache with
    | none => none
    | some c => some { s with cache := c }

/-- The `PRP_CLOCK` loop over the workload. -/
def clockRun (memsize : Nat) : List Page → ClockState → Option ClockState
  | [], s => some s
  | a :: rest, s =>
    match clockStep memsize s a with
    | none => none
    | some s' => clockRun memsize rest s'

/-- `int PRP_CLOCK(const vector<int>& workload, unsigned int memsize)`. -/
def PRP_CLOCK (workload : List Page) (memsize : Nat) : Option Nat :=
  (clockRun memsize workload ⟨[], 0⟩).map ClockState.hits

/-! ## Capacity argument conversion

The evaluators take `unsigned int memsize`; a caller passing a negative
`int` capacity triggers the implicit conversion modulo `2 ^ 32`. -/

/-- The C++ `int → unsigned int` conversion applied to the capacity
argument at a call site. -/
def toUnsigned32 (c : Int) : Nat := (c % (2 ^ 32 : Int)).toNat

/-- `PRP_FIFO` as seen by a caller passing a signed capacity. -/
def PRP_FIFO_ofInt (workload : List Page) (capacity : Int) : Option Nat :=
  PRP_FIFO workload (toUnsigned32 capacity)

/-- `PRP_LRU` as seen by a caller passing a signed capacity. -/
def PRP_LRU_ofInt (workload : List Page) (capacity : Int) : Nat :=
  PRP_LRU workload (toUnsigned32 capacity)

/-! ## Distinct pages and the no-pressure hit count -/

/-- First-occurrence list: the pages of `w` in order of first occurrence,
appended to the already-seen list `seen`. -/
def nubAcc (seen : List Page) : List Page → List Page
  | [] => seen
  | a :: rest => if a ∈ seen then nubAcc seen rest else nubAcc (seen ++ [a]) rest

/-- Hit count of an ideal (never-evicting) cache that already holds
`seen`: every access to an already-seen page is a hit. -/
def idealGo (seen : List Page) : List Page → Nat
  | [] => 0
  | a :: rest => if a ∈ seen then idealGo seen rest + 1 else idealGo (seen ++ [a]) rest

/-! ## Comparison models taken from the specification's words

These two definitions are *not* translations of the source; they follow the
specification text, and are used only to compare the source's behaviour
against the behaviour the specification describes. -/

/-- Modelled from the spec (§4.2 Optimal evaluator): position of the next
occurrence of `p` in the remaining workload, with "never" mapped past every
real index. -/
def nextUseKey (future : List Page) (p : Page) : Nat :=
  match future.findIdx? (fun q => q = p) with
  | some k => k
  | none => future.length + 1

/-- Modelled from the spec (§4.2): the resident page with the furthest (or
absent) next occurrence, ties broken by lowest page id. -/
def beladyVictim (future : List Page) : List Page → Page
  | [] => 0
  | p :: rest =>
    rest.foldl
      (fun best q =>
        if nextUseKey future best < nextUseKey future q ∨
            (nextUseKey future q = nextUseKey future best ∧ q < best) then q
        else best)
      p

/-- Modelled from the spec (§4.2 Optimal evaluator): hit if resident, admit
while there is room, else evict the resident page whose next occurrence at
or after the next position is furthest or absent. -/
def optSpecGo (cap : Nat) : List Page → List Page → Nat → Nat
  | [], _, hits => hits
  | a :: rest, mem, hits =>
    if a ∈ mem then optSpecGo cap rest mem (hits + 1)
    else if mem.length < cap then optSpecGo cap rest (mem ++ [a]) hits
    else if mem.isEmpty then optSpecGo cap rest mem hits
    else optSpecGo cap rest ((mem.erase (beladyVictim rest mem)) ++ [a]) hits

/-- Modelled from the spec (§4.2): the Optimal evaluator as the
specification describes it. -/
def OPT_spec (workload : List Page) (cap : Nat) : Nat :=
  optSpecGo cap workload [] 0

/-- Modelled from the spec (§4.5 Clock evaluator): the sweep from the
current hand — while the entry at the hand has its use bit set, clear it
and advance the hand circularly; stop at the first clear use bit (with the
sweep's origin as fallback after one full wrap, which the fuel realises).
Returns the cache after clearing together with the victim index. -/
def clockSpecSweep : Nat → List (Page × Bool) → Nat → List (Page × Bool) × Nat
  | 0, cache, hand => (cache, hand)
  | fuel + 1, cache, hand =>
    match cache.get? hand with
    | some (p, true) =>
      clockSpecSweep fuel (cache.set hand (p, false)) ((hand + 1) % cache.length)
    | _ => (cache, hand)

/-- Modelled from the spec (§4.5 Clock evaluator): a persistent hand index
across accesses; on a full miss, sweep from the current hand, overwrite the
victim with `(page, true)`, and advance the hand past the victim. -/
def clockSpecGo (cap : Nat) : List Page → List (Page × Bool) → Nat → Nat → Nat
  | [], _, _, hits => hits
  | a :: rest, cache, hand, hits =>
    if cache.any (fun e => e.1 = a) then
      clockSpecGo cap rest (clockTouch a cache) hand (hits + 1)
    else if cache.length < cap then
      clockSpecGo cap rest (cache ++ [(a, true)]) hand hits
    else if cache.length = 0 then
      clockSpecGo cap rest cache hand hits
    else
      let swept := clockSpecSweep cache.length cache hand
      clockSpecGo cap rest (swept.1.set swept.2 (a, true)) ((swept.2 + 1) % cache.length)
        hits

/-- Modelled from the spec (§4.5): the Clock evaluator as the specification
describes it. -/
def CLOCK_spec (workload : List Page) (cap : Nat) : Nat :=
  clockSpecGo cap workload [] 0 0

/-! ## Helper lemmas about `nubAcc` and `idealGo` -/

lemma nubAcc_cons_mem {a : Page} {seen : List Page} (rest : List Page) (h : a ∈ seen) :
    nubAcc seen (a :: rest) = nubAcc seen rest := by
  simp [nubAcc, h]

lemma nubAcc_cons_not_mem {a : Page} {seen : List Page} (rest : List Page) (h : a ∉ seen) :
    nubAcc seen (a :: rest) = nubAcc (seen ++ [a]) rest := by
  simp [nubAcc, h]

lemma length_le_nubAcc : ∀ (future seen : List Page), seen.length ≤ (nubAcc seen future).length
  | [], seen => le_refl _
  | a :: rest, seen => by
    by_cases h : a ∈ seen
    · rw [nubAcc_cons_mem rest h]
      exact length_le_nubAcc rest seen
    · rw [nubAcc_cons_not_mem rest h]
      have := length_le_nubAcc rest (seen ++ [a])
      simp only [List.length_append, List.length_cons, List.length_nil] at this
      omega

lemma nubAcc_length_le : ∀ (future seen : List Page),
    (nubAcc seen future).length ≤ seen.length + future.length
  | [], seen => by simp [nubAcc]
  | a :: rest, seen => by
    by_cases h : a ∈ seen
    · rw [nubAcc_cons_mem rest h]
      have := nubAcc_length_le rest seen
      simp only [List.length_cons]
      omega
    · rw [nubAcc_cons_not_mem rest h]
      have := nubAcc_length_le rest (seen ++ [a])
      simp only [List.length_append, List.length_cons, List.length_nil] at this ⊢
      omega

lemma idealGo_add_nubAcc : ∀ (future seen : List Page),
    idealGo seen future + (nubAcc seen future).length = future.length + seen.length
  | [], seen => by simp [idealGo, nubAcc]
  | a :: rest, seen => by
    by_cases h : a ∈ seen
    · rw [nubAcc_cons_mem rest h]
      have := idealGo_add_nubAcc rest seen
      simp only [idealGo, if_pos h, List.length_cons]
      omega
    · rw [nubAcc_cons_not_mem rest h]
      have := idealGo_add_nubAcc rest (seen ++ [a])
      simp only [idealGo, if_neg h, List.length_cons, List.length_append,
        List.length_nil] at this ⊢
      omega

lemma idealGo_nil_eq : ∀ w : List Page, idealGo [] w = w.length - (nubAcc [] w).length := by
  intro w
  have := idealGo_add_nubAcc w []
  simp only [List.length_nil] at this
  omega

/-! ## Helper lemmas: runs without eviction pressure -/

lemma mem_append_replicate_iff {a x : Page} (h : a ≠ x) (l : List Page) (k : Nat) :
    a ∈ l ++ List.replicate k x ↔ a ∈ l := by
  simp only [List.mem_append, List.mem_replicate]
  constructor
  · rintro (h' | ⟨-, h'⟩)
    · exact h'
    · exact absurd h' h
  · exact Or.inl

lemma set_at_append_replicate (l : List Page) (k : Nat) (x a : Page) :
    (l ++ List.replicate (k + 1) x).set l.length a = (l ++ [a]) ++ List.replicate k x := by
  induction l with
  | nil => simp [List.replicate_succ]
  | cons b t ih => simp [List.set, ih]

lemma fifoRun_noPressure (c : Nat) (future : List Page) :
    ∀ (seen : List Page) (hits : Nat),
      INVALID_PAGE ∉ seen → INVALID_PAGE ∉ future →
      (nubAcc seen future).length ≤ c →
      ∃ s', fifoRun future
          ⟨seen ++ List.replicate (c - seen.length) INVALID_PAGE, seen.length % c, hits⟩
          = some s' ∧ s'.hits = hits + idealGo seen future := by
  induction future with
  | nil =>
    intro seen hits _ _ _
    exact ⟨_, rfl, by simp [idealGo, fifoRun]⟩
  | cons a rest ih =>
    intro seen hits hs hf hlen
    have ha1 : a ≠ INVALID_PAGE := fun h => hf (h ▸ List.mem_cons_self a rest)
    have hfr : INVALID_PAGE ∉ rest := fun h => hf (List.mem_cons_of_mem a h)
    by_cases ha : a ∈ seen
    · -- cache hit: the slot array and head are unchanged
      have hmem : a ∈ seen ++ List.replicate (c - seen.length) INVALID_PAGE :=
        List.mem_append_left _ ha
      rw [nubAcc_cons_mem rest ha] at hlen
      obtain ⟨s', h1, h2⟩ := ih seen (hits + 1) hs hfr hlen
      refine ⟨s', ?_, ?_⟩
      · simp only [fifoRun, fifoStep, if_pos hmem]
        exact h1
      · rw [h2]
        simp only [idealGo, if_pos ha]
        omega
    · -- cache miss: the slot at the head is overwritten
      rw [nubAcc_cons_not_mem rest ha] at hlen
      have hseenlt : seen.length < c := by
        have h1 := length_le_nubAcc rest (seen ++ [a])
        simp only [List.length_append, List.length_cons, List.length_nil] at h1
        omega
      have hnm : a ∉ seen ++ List.replicate (c - seen.length) INVALID_PAGE := by
        rw [mem_append_replicate_iff ha1]
        exact ha
      have hslotlen : (seen ++ List.replicate (c - seen.length) INVALID_PAGE).length = c := by
        simp only [List.length_append, List.length_replicate]
        omega
      have hheadmod : seen.length % c = seen.length := Nat.mod_eq_of_lt hseenlt
      have hk : c - seen.length = (c - (seen.length + 1)) + 1 := by omega
      have hsx : INVALID_PAGE ∉ seen ++ [a] := by
        simp only [List.mem_append, List.mem_singleton]
        rintro (h | h)
        · exact hs h
        · exact ha1 h.symm
      obtain ⟨s', h1, h2⟩ := ih (seen ++ [a]) hits hsx hfr hlen
      refine ⟨s', ?_, ?_⟩
      · simp only [fifoRun, fifoStep, if_neg hnm, hslotlen, hheadmod, if_pos hseenlt]
        rw [hk, set_at_append_replicate]
        have hlen2 : (seen ++ [a]).length = seen.length + 1 := by simp
        rw [hlen2] at h1
        exact h1
      · rw [h2]
        simp only [idealGo, if_neg ha]

/-- `PRP_FIFO` under no eviction pressure: with no access equal to the
sentinel and capacity at least the number of distinct pages, the hit count
is the workload length minus the number of distinct pages. -/
lemma PRP_FIFO_noPressure {w : List Page} {c : Nat} (h1 : INVALID_PAGE ∉ w)
    (h2 : (nubAcc [] w).length ≤ c) :
    PRP_FIFO w c = some (w.length - (nubAcc [] w).length) := by
  obtain ⟨s', hrun, hhits⟩ :=
    fifoRun_noPressure c w [] 0 (by simp) h1 h2
  simp only [List.nil_append, List.length_nil, Nat.sub_zero, Nat.zero_mod] at hrun
  rw [PRP_FIFO, hrun]
  simp [hhits, idealGo_nil_eq w]

lemma optRun_noPressure (c : Nat) (future : List Page) :
    ∀ (seen : List Page) (hits : Nat),
      (nubAcc seen future).length ≤ c →
      optRun c future ⟨seen, hits⟩ = some ⟨nubAcc seen future, hits + idealGo seen future⟩ := by
  induction future with
  | nil =>
    intro seen hits _
    simp [optRun, nubAcc, idealGo]
  | cons a rest ih =>
    intro seen hits hlen
    by_cases ha : a ∈ seen
    · rw [nubAcc_cons_mem rest ha] at hlen ⊢
      simp only [optRun, optStep, if_pos ha, idealGo, if_pos ha]
      have harith : hits + (idealGo seen rest + 1) = (hits + 1) + idealGo seen rest := by omega
      rw [harith]
      exact ih seen (hits + 1) hlen
    · rw [nubAcc_cons_not_mem rest ha] at hlen ⊢
      have hlt : seen.length < c := by
        have h1 := length_le_nubAcc rest (seen ++ [a])
        simp only [List.length_append, List.length_cons, List.length_nil] at h1
        omega
      simp only [optRun, optStep, if_neg ha, if_pos hlt, insertSet, idealGo]
      exact ih (seen ++ [a]) hits hlen

/-- `PRP_OPT` under no eviction pressure. -/
lemma PRP_OPT_noPressure {w : List Page} {c : Nat} (h : (nubAcc [] w).length ≤ c) :
    PRP_OPT w c = some (w.length - (nubAcc [] w).length) := by
  rw [PRP_OPT, optRun_noPressure c w [] 0 h]
  simp [idealGo_nil_eq w]

lemma randRun_noPressure (c : Nat) (rng : Nat → Nat) (future : List Page) :
    ∀ (seen : List Page) (k hits : Nat),
      (nubAcc seen future).length ≤ c →
      randRun c rng future ⟨seen, k, hits⟩ =
        some ⟨nubAcc seen future, k, hits + idealGo seen future⟩ := by
  induction future with
  | nil =>
    intro seen k hits _
    simp [randRun, nubAcc, idealGo]
  | cons a rest ih =>
    intro seen k hits hlen
    by_cases ha : a ∈ seen
    · rw [nubAcc_cons_mem rest ha] at hlen ⊢
      simp only [randRun, randStep, if_pos ha, idealGo, if_pos ha]
      have harith : hits + (idealGo seen rest + 1) = (hits + 1) + idealGo seen rest := by omega
      rw [harith]
      exact ih seen k (hits + 1) hlen
    · rw [nubAcc_cons_not_mem rest ha] at hlen ⊢
      have hlt : seen.length < c := by
        have h1 := length_le_nubAcc rest (seen ++ [a])
        simp only [List.length_append, List.length_cons, List.length_nil] at h1
        omega
      simp only [randRun, randStep, if_neg ha, if_pos hlt, idealGo]
      exact ih (seen ++ [a]) k hits hlen

/-- `PRP_RAND` under no eviction pressure (for every engine stream — no
random draw is ever made). -/
lemma PRP_RAND_noPressure {w : List Page} {c : Nat} (rng : Nat → Nat)
    (h : (nubAcc [] w).length ≤ c) :
    PRP_RAND w c rng = some (w.length - (nubAcc [] w).length) := by
  rw [PRP_RAND, randRun_noPressure c rng w [] 0 0 h]
  simp [idealGo_nil_eq w]

lemma any_key_iff {β : Type} (cache : List (Page × β)) (a : Page) :
    (cache.any fun e => e.1 = a) = true ↔ a ∈ cache.map Prod.fst := by
  simp [List.any_eq_true, List.mem_map]

lemma lruUpdate_map_fst (a : Page) (t : Nat) (cache : List (Page × Nat)) :
    (lruUpdate a t cache).map Prod.fst = cache.map Prod.fst := by
  induction cache with
  | nil => rfl
  | cons e rest ih =>
    simp only [lruUpdate, List.map_cons] at ih ⊢
    by_cases h : e.1 = a
    · simp only [if_pos h]
      exact congrArg _ ih
    · simp only [if_neg h]
      exact congrArg _ ih

lemma lruShrinkGo_of_le {m : Nat} {cache : List (Page × Nat)} (h : cache.length ≤ m) :
    ∀ fuel, lruShrinkGo m fuel cache = cache
  | 0 => rfl
  | fuel + 1 => by simp [lruShrinkGo, Nat.not_lt.mpr h]

lemma lruShrink_of_le {m : Nat} {cache : List (Page × Nat)} (h : cache.length ≤ m) :
    lruShrink m cache = cache :=
  lruShrinkGo_of_le h cache.length

lemma lruRun_noPressure (c : Nat) (future : List Page) :
    ∀ (seen : List Page) (cache : List (Page × Nat)) (t hits : Nat),
      cache.map Prod.fst = seen →
      (nubAcc seen future).length ≤ c →
      ∃ cache', lruRun c future ⟨cache, t, hits⟩ =
          ⟨cache', t + future.length, hits + idealGo seen future⟩ ∧
        cache'.map Prod.fst = nubAcc seen future := by
  induction future with
  | nil =>
    intro seen cache t hits hk hlen
    exact ⟨cache, by simp [lruRun, idealGo], by simp [nubAcc, hk]⟩
  | cons a rest ih =>
    intro seen cache t hits hk hlen
    by_cases ha : a ∈ seen
    · rw [nubAcc_cons_mem rest ha] at hlen ⊢
      have hb : (cache.any fun e => e.1 = a) = true := by
        rw [any_key_iff, hk]
        exact ha
      obtain ⟨cache', h1, h2⟩ := ih seen (lruUpdate a t cache) (t + 1) (hits + 1)
        (by rw [lruUpdate_map_fst, hk]) hlen
      refine ⟨cache', ?_, h2⟩
      simp only [lruRun, lruStep, hb, if_true, List.length_cons, idealGo, if_pos ha]
      have e1 : t + (rest.length + 1) = (t + 1) + rest.length := by omega
      have e2 : hits + (idealGo seen rest + 1) = (hits + 1) + idealGo seen rest := by omega
      rw [e1, e2]
      exact h1
    · rw [nubAcc_cons_not_mem rest ha] at hlen ⊢
      have hb : ¬ ((cache.any fun e => e.1 = a) = true) := by
        rw [any_key_iff, hk]
        exact ha
      have hclen : cache.length = seen.length := by
        rw [← hk, List.length_map]
      have hlt : seen.length < c := by
        have h1 := length_le_nubAcc rest (seen ++ [a])
        simp only [List.length_append, List.length_cons, List.length_nil] at h1
        omega
      have hshrink : lruShrink c (cache ++ [(a, t)]) = cache ++ [(a, t)] := by
        apply lruShrink_of_le
        simp only [List.length_append, List.length_cons, List.length_nil, hclen]
        omega
      obtain ⟨cache', h1, h2⟩ := ih (seen ++ [a]) (cache ++ [(a, t)]) (t + 1) hits
        (by simp [hk]) hlen
      refine ⟨cache', ?_, h2⟩
      simp only [lruRun, lruStep, hb, if_false, if_neg hb, hshrink, List.length_cons,
        idealGo, if_neg ha]
      have e1 : t + (rest.length + 1) = (t + 1) + rest.length := by omega
      rw [e1]
      exact h1

/-- `PRP_LRU` under no eviction pressure. -/
lemma PRP_LRU_noPressure {w : List Page} {c : Nat} (h : (nubAcc [] w).length ≤ c) :
    PRP_LRU w c = w.length - (nubAcc [] w).length := by
  obtain ⟨cache', h1, -⟩ := lruRun_noPressure c w [] [] 0 0 rfl h
  rw [PRP_LRU, h1]
  simp [idealGo_nil_eq w]

lemma clockTouch_map_fst (a : Page) :
    ∀ l : List (Page × Bool), (clockTouch a l).map Prod.fst = l.map Prod.fst
  | [] => rfl
  | e :: rest => by
    by_cases h : e.1 = a
    · simp [clockTouch, h]
    · simp [clockTouch, h, clockTouch_map_fst a rest]

lemma clockRun_noPressure (c : Nat) (future : List Page) :
    ∀ (seen : List Page) (cache : List (Page × Bool)) (hits : Nat),
      cache.map Prod.fst = seen →
      (nubAcc seen future).length ≤ c →
      ∃ cache', clockRun c future ⟨cache, hits⟩ =
          some ⟨cache', hits + idealGo seen future⟩ ∧
        cache'.map Prod.fst = nubAcc seen future := by
  induction future with
  | nil =>
    intro seen cache hits hk hlen
    exact ⟨cache, by simp [clockRun, idealGo], by simp [nubAcc, hk]⟩
  | cons a rest ih =>
    intro seen cache hits hk hlen
    by_cases ha : a ∈ seen
    · rw [nubAcc_cons_mem rest ha] at hlen ⊢
      have hb : (cache.any fun e => e.1 = a) = true := by
        rw [any_key_iff, hk]
        exact ha
      obtain ⟨cache', h1, h2⟩ := ih seen (clockTouch a cache) (hits + 1)
        (by rw [clockTouch_map_fst, hk]) hlen
      refine ⟨cache', ?_, h2⟩
      simp only [clockRun, clockStep, hb, if_true, idealGo, if_pos ha]
      have e2 : hits + (idealGo seen rest + 1) = (hits + 1) + idealGo seen rest := by omega
      rw [e2]
      exact h1
    · rw [nubAcc_cons_not_mem rest ha] at hlen ⊢
      have hb : ¬ ((cache.any fun e => e.1 = a) = true) := by
        rw [any_key_iff, hk]
        exact ha
      have hclen : cache.length = seen.length := by
        rw [← hk, List.length_map]
      have hlt : cache.length < c := by
        have h1 := length_le_nubAcc rest (seen ++ [a])
        simp only [List.length_append, List.length_cons, List.length_nil] at h1
        omega
      obtain ⟨cache', h1, h2⟩ := ih (seen ++ [a]) (cache ++ [(a, true)]) hits
        (by simp [hk]) hlen
      refine ⟨cache', ?_, h2⟩
      simp only [clockRun, clockStep, hb, if_false, if_neg hb, if_pos hlt, idealGo,
        if_neg ha]
      exact h1

/-- `PRP_CLOCK` under no eviction pressure. -/
lemma PRP_CLOCK_noPressure {w : List Page} {c : Nat} (h : (nubAcc [] w).length ≤ c) :
    PRP_CLOCK w c = some (w.length - (nubAcc [] w).length) := by
  obtain ⟨cache', h1, -⟩ := clockRun_noPressure c w [] [] 0 rfl h
  rw [PRP_CLOCK, h1]
  simp [idealGo_nil_eq w]

/-! ## C5: hit counts without eviction pressure -/

/-- C5 (amended): if the capacity is at least the number of distinct pages
of the workload then no evaluator ever evicts, every access after a page's
first occurrence hits, and the hit count is the workload length minus the
number of distinct pages — for `PRP_OPT`, `PRP_RAND` (under every engine
stream), `PRP_LRU` and `PRP_CLOCK` unconditionally, and for `PRP_FIFO`
provided no accessed page equals the empty-slot sentinel `-1`. -/
theorem no_pressure_hit_counts :
    ∀ (w : List Page) (c : Nat), (nubAcc [] w).length ≤ c →
      (INVALID_PAGE ∉ w → PRP_FIFO w c = some (w.length - (nubAcc [] w).length)) ∧
      PRP_OPT w c = some (w.length - (nubAcc [] w).length) ∧
      (∀ rng, PRP_RAND w c rng = some (w.length - (nubAcc [] w).length)) ∧
      PRP_LRU w c = w.length - (nubAcc [] w).length ∧
      PRP_CLOCK w c = some (w.length - (nubAcc [] w).length) :=
  fun _ _ h =>
    ⟨fun h1 => PRP_FIFO_noPressure h1 h, PRP_OPT_noPressure h,
     fun rng => PRP_RAND_noPressure rng h, PRP_LRU_noPressure h,
     PRP_CLOCK_noPressure h⟩

/-- C5 (witness): workload `[1,2,1,2]` with capacity 2 has 2 distinct
pages and yields `4 - 2 = 2` hits. -/
theorem no_pressure_hit_counts_witness :
    PRP_FIFO [1, 2, 1, 2] 2 = some 2 ∧ PRP_LRU [1, 2, 1, 2] 2 = 2 :=
  ⟨(no_pressure_hit_counts [1, 2, 1, 2] 2 (by decide)).1 (by decide),
   (no_pressure_hit_counts [1, 2, 1, 2] 2 (by decide)).2.2.2.1⟩

/-! ## Helper lemmas: totality for positive capacities -/

lemma fifoRun_total (future : List Page) :
    ∀ s : FifoState, s.head < s.slots.length → (fifoRun future s).isSome := by
  induction future with
  | nil =>
    intro s _
    rfl
  | cons a rest ih =>
    intro s hs
    by_cases ha : a ∈ s.slots
    · simp only [fifoRun, fifoStep, if_pos ha]
      exact ih _ hs
    · simp only [fifoRun, fifoStep, if_neg ha, if_pos hs]
      apply ih
      have hpos : 0 < s.slots.length := lt_of_le_of_lt (Nat.zero_le _) hs
      simpa [List.length_set] using Nat.mod_lt _ hpos

lemma narrowGo_length_pos :
    ∀ (f cands : List Page), 0 < cands.length → 0 < (narrowGo f cands).length := by
  intro f
  induction f with
  | nil =>
    intro cands h
    simpa [narrowGo] using h
  | cons a rest ih =>
    intro cands h
    by_cases h1 : cands.length ≤ 1
    · simpa [narrowGo, h1] using h
    · by_cases h2 : gtZeroAsInt a ∈ cands
      · simp only [narrowGo, if_neg h1, if_pos h2]
        apply ih
        by_cases hm : a ∈ cands
        · rw [List.length_erase_of_mem hm]
          omega
        · rw [List.erase_of_not_mem hm]
          omega
      · simp only [narrowGo, if_neg h1, if_neg h2]
        exact ih cands h

lemma optRun_total (c : Nat) (hc : 1 ≤ c) (future : List Page) :
    ∀ s : OptState, (optRun c future s).isSome := by
  induction future with
  | nil =>
    intro s
    rfl
  | cons a rest ih =>
    intro s
    by_cases ha : a ∈ s.mem
    · simp only [optRun, optStep, if_pos ha]
      exact ih _
    · by_cases hlt : s.mem.length < c
      · simp only [optRun, optStep, if_neg ha, if_pos hlt]
        exact ih _
      · have hpos : 0 < s.mem.length := by omega
        have hn := narrowGo_length_pos (a :: rest) s.mem hpos
        simp only [optRun, optStep, if_neg ha, if_neg hlt]
        cases hcase : narrowGo (a :: rest) s.mem with
        | nil =>
          rw [hcase] at hn
          simp at hn
        | cons v t =>
          simp only [hcase]
          exact ih _

lemma randRun_total (c : Nat) (hc : 1 ≤ c) (rng : Nat → Nat) (future : List Page) :
    ∀ s : RandState, (randRun c rng future s).isSome := by
  induction future with
  | nil =>
    intro s
    rfl
  | cons a rest ih =>
    intro s
    by_cases ha : a ∈ s.mem
    · simp only [randRun, randStep, if_pos ha]
      exact ih _
    · by_cases hlt : s.mem.length < c
      · simp only [randRun, randStep, if_neg ha, if_pos hlt]
        exact ih _
      · have hne : ¬ s.mem.length = 0 := by omega
        simp only [randRun, randStep, if_neg ha, if_neg hlt, if_neg hne]
        exact ih _

lemma clockEvict_isSome (a : Page) (cache : List (Page × Bool)) (h : cache ≠ []) :
    (clockEvict a cache).isSome := by
  cases hs : clockSweepGo a cache with
  | some r =>
    simp [clockEvict, hs]
  | none =>
    cases cache with
    | nil => exact absurd rfl h
    | cons e rest => simp [clockEvict, hs]

lemma clockRun_total (c : Nat) (hc : 1 ≤ c) (future : List Page) :
    ∀ s : ClockState, (clockRun c future s).isSome := by
  induction future with
  | nil =>
    intro s
    rfl
  | cons a rest ih =>
    intro s
    by_cases ha : (s.cache.any fun e => e.1 = a) = true
    · simp only [clockRun, clockStep, ha, if_true]
      exact ih _
    · by_cases hlt : s.cache.length < c
      · simp only [clockRun, clockStep, ha, if_false, if_neg ha, if_pos hlt]
        exact ih _
      · have hne : s.cache ≠ [] := by
          intro hnil
          rw [hnil] at hlt
          simp at hlt
          omega
        have := clockEvict_isSome a s.cache hne
        simp only [clockRun, clockStep, if_neg ha, if_neg hlt]
        cases hcase : clockEvict a s.cache with
        | none =>
          rw [hcase] at this
          simp at this
        | some r =>
          simp only [hcase]
          exact ih _

/-! ## C3: container-access safety -/

/-- C3: the claim fails at capacity 0 — `PRP_FIFO` indexes the empty slot
array (`cachedPages.at(0)` throws `std::out_of_range`, modelled as `none`)
on the first miss — while for every capacity of at least 1 no evaluator
ever reaches an out-of-bounds access, an invalid iterator dereference or a
modulo by zero (every run completes with a result). -/
theorem container_access_safety :
    PRP_FIFO [1] 0 = none ∧
    ∀ (w : List Page) (c : Nat), 1 ≤ c →
      (PRP_FIFO w c).isSome ∧ (PRP_OPT w c).isSome ∧
      (∀ rng, (PRP_RAND w c rng).isSome) ∧ (PRP_CLOCK w c).isSome := by
  refine ⟨rfl, fun w c hc => ⟨?_, ?_, fun rng => ?_, ?_⟩⟩
  · have h := fifoRun_total w ⟨List.replicate c INVALID_PAGE, 0, 0⟩
      (by simp only [List.length_replicate]; omega)
    obtain ⟨s, hs⟩ := Option.isSome_iff_exists.mp h
    rw [PRP_FIFO, hs]
    rfl
  · obtain ⟨s, hs⟩ := Option.isSome_iff_exists.mp (optRun_total c hc w ⟨[], 0⟩)
    rw [PRP_OPT, hs]
    rfl
  · obtain ⟨s, hs⟩ := Option.isSome_iff_exists.mp (randRun_total c hc rng w ⟨[], 0, 0⟩)
    rw [PRP_RAND, hs]
    rfl
  · obtain ⟨s, hs⟩ := Option.isSome_iff_exists.mp (clockRun_total c hc w ⟨[], 0⟩)
    rw [PRP_CLOCK, hs]
    rfl

/-- C3 (witness): the capacity-0 crash and two positive-capacity runs. -/
theorem container_access_safety_witness :
    PRP_FIFO [1] 0 = none ∧ (PRP_FIFO [5, 6, 5] 2).isSome ∧ (PRP_OPT [5, 6, 5] 2).isSome :=
  ⟨container_access_safety.1,
   (container_access_safety.2 [5, 6, 5] 2 (by decide)).1,
   (container_access_safety.2 [5, 6, 5] 2 (by decide)).2.1⟩

/-! ## Helper lemmas: per-step size bounds -/

lemma narrowGo_subset : ∀ (f cands : List Page), narrowGo f cands ⊆ cands := by
  intro f
  induction f with
  | nil =>
    intro cands
    exact fun x hx => hx
  | cons a rest ih =>
    intro cands
    by_cases h1 : cands.length ≤ 1
    · simp only [narrowGo, if_pos h1]
      exact fun x hx => hx
    · by_cases h2 : gtZeroAsInt a ∈ cands
      · simp only [narrowGo, if_neg h1, if_pos h2]
        exact (ih (cands.erase a)).trans (List.erase_subset a cands)
      · simp only [narrowGo, if_neg h1, if_neg h2]
        exact ih cands

lemma clockTouch_length (a : Page) : ∀ l : List (Page × Bool), (clockTouch a l).length = l.length
  | [] => rfl
  | e :: rest => by
    by_cases h : e.1 = a
    · simp [clockTouch, h]
    · simp [clockTouch, h, clockTouch_length a rest]

lemma clockSweepGo_length (a : Page) :
    ∀ (l r : List (Page × Bool)), clockSweepGo a l = some r → r.length = l.length := by
  intro l
  induction l with
  | nil =>
    intro r h
    simp [clockSweepGo] at h
  | cons e rest ih =>
    intro r h
    rcases e with ⟨p, b⟩
    cases b with
    | false =>
      simp only [clockSweepGo, Bool.false_eq_true, if_false] at h
      cases h
      simp
    | true =>
      simp only [clockSweepGo, if_true] at h
      rcases Option.map_eq_some'.mp h with ⟨r', hr', rfl⟩
      simp [ih r' hr']

lemma clockEvict_length (a : Page) (l r : List (Page × Bool)) :
    clockEvict a l = some r → r.length = l.length := by
  intro h
  cases hs : clockSweepGo a l with
  | some r' =>
    simp only [clockEvict, hs] at h
    injection h with h
    subst h
    exact clockSweepGo_length a l _ hs
  | none =>
    cases l with
    | nil => simp [clockEvict, hs] at h
    | cons e rest =>
      simp only [clockEvict, hs] at h
      injection h with h
      subst h
      simp

lemma lruVictim_foldl_mem :
    ∀ (l : List (Page × Nat)) (e : Page × Nat),
      l.foldl (fun best x => if x.2 < best.2 then x else best) e ∈ e :: l := by
  intro l
  induction l with
  | nil =>
    intro e
    simp
  | cons x rest ih =>
    intro e
    simp only [List.foldl_cons]
    have h := ih (if x.2 < e.2 then x else e)
    rcases List.mem_cons.mp h with h' | h'
    · rw [h']
      by_cases hx : x.2 < e.2
      · rw [if_pos hx]
        exact List.mem_cons_of_mem _ (List.mem_cons_self _ _)
      · rw [if_neg hx]
        exact List.mem_cons_self _ _
    · exact List.mem_cons_of_mem _ (List.mem_cons_of_mem _ h')

lemma lruVictim_foldl_min :
    ∀ (l : List (Page × Nat)) (e : Page × Nat),
      (l.foldl (fun best x => if x.2 < best.2 then x else best) e).2 ≤ e.2 ∧
      ∀ x ∈ l, (l.foldl (fun best x => if x.2 < best.2 then x else best) e).2 ≤ x.2 := by
  intro l
  induction l with
  | nil =>
    intro e
    exact ⟨le_refl _, by simp⟩
  | cons x rest ih =>
    intro e
    simp only [List.foldl_cons]
    obtain ⟨ih1, ih2⟩ := ih (if x.2 < e.2 then x else e)
    have hfe : (if x.2 < e.2 then x else e).2 ≤ e.2 := by
      by_cases hx : x.2 < e.2
      · rw [if_pos hx]
        exact le_of_lt hx
      · rw [if_neg hx]
    have hfx : (if x.2 < e.2 then x else e).2 ≤ x.2 := by
      by_cases hx : x.2 < e.2
      · rw [if_pos hx]
      · rw [if_neg hx]
        omega
    refine ⟨ih1.trans hfe, fun y hy => ?_⟩
    rcases List.mem_cons.mp hy with h' | h'
    · rw [h']
      exact ih1.trans hfx
    · exact ih2 y h'

lemma eraseEntry_length {e : Page × Nat} :
    ∀ {l : List (Page × Nat)}, e ∈ l → (eraseEntry e l).length = l.length - 1 := by
  intro l
  induction l with
  | nil =>
    intro h
    simp at h
  | cons x rest ih =>
    intro h
    by_cases hx : x = e
    · simp [eraseEntry, hx]
    · have hr : e ∈ rest := by
        rcases List.mem_cons.mp h with h' | h'
        · exact absurd h'.symm hx
        · exact h'
      have hlen : 1 ≤ rest.length := List.length_pos.mpr (List.ne_nil_of_mem hr)
      simp only [eraseEntry, if_neg hx, List.length_cons, ih hr]
      omega

lemma lruShrink_overflow {c : Nat} {l : List (Page × Nat)} (h : l.length = c + 1) :
    ∃ e, lruVictim l = some e ∧ e ∈ l ∧ (∀ x ∈ l, e.2 ≤ x.2) ∧
      lruShrink c l = eraseEntry e l ∧ (eraseEntry e l).length = c := by
  cases l with
  | nil => simp at h
  | cons x rest =>
    refine ⟨_, rfl, lruVictim_foldl_mem rest x, ?_, ?_, ?_⟩
    · intro y hy
      obtain ⟨h1, h2⟩ := lruVictim_foldl_min rest x
      rcases List.mem_cons.mp hy with h' | h'
      · rw [h']
        exact h1
      · exact h2 y h'
    · rw [lruShrink, h]
      simp only [lruShrinkGo, lruVictim, if_pos (by omega : c < (x :: rest).length)]
      apply lruShrinkGo_of_le
      rw [eraseEntry_length (lruVictim_foldl_mem rest x), h]
      omega
    · rw [eraseEntry_length (lruVictim_foldl_mem rest x), h]
      omega

/-! ## C6: the resident set never outgrows the capacity -/

/-- C6: every policy's access step keeps the resident-set size at or below
the capacity (FIFO's slot count is invariant, so its resident-page count
is bounded by it), and an overflowing LRU miss — a missing page inserted
into a map already holding `capacity` entries — evicts exactly one entry,
one holding the minimum timestamp of the map after insertion. -/
theorem resident_size_bounded :
    ∀ c : Nat,
    (∀ (s : FifoState) (a : Page) (s' : FifoState), s.slots.length = c →
       fifoStep s a = some s' → s'.slots.length = c ∧
         s'.slots.countP (fun p => p ≠ INVALID_PAGE) ≤ c) ∧
    (∀ (f : List Page) (s s' : OptState), s.mem.length ≤ c →
       optStep c f s = some s' → s'.mem.length ≤ c) ∧
    (∀ (rng : Nat → Nat) (s : RandState) (a : Page) (s' : RandState), s.mem.length ≤ c →
       randStep c rng s a = some s' → s'.mem.length ≤ c) ∧
    (∀ (s : LruState) (a : Page), s.cache.length ≤ c →
       (lruStep c s a).cache.length ≤ c) ∧
    (∀ (s : ClockState) (a : Page) (s' : ClockState), s.cache.length ≤ c →
       clockStep c s a = some s' → s'.cache.length ≤ c) ∧
    (∀ (s : LruState) (a : Page), a ∉ s.cache.map Prod.fst → s.cache.length = c →
       ∃ e, e ∈ s.cache ++ [(a, s.time)] ∧
         (∀ x ∈ s.cache ++ [(a, s.time)], e.2 ≤ x.2) ∧
         (lruStep c s a).cache = eraseEntry e (s.cache ++ [(a, s.time)]) ∧
         (lruStep c s a).cache.length = c) := by
  intro c
  refine ⟨?_, ?_, ?_, ?_, ?_, ?_⟩
  · -- FIFO: the slot vector's length never changes
    intro s a s' hlen hstep
    by_cases ha : a ∈ s.slots
    · simp only [fifoStep, if_pos ha] at hstep
      injection hstep with h
      subst h
      exact ⟨hlen, hlen ▸ List.countP_le_length _⟩
    · by_cases hh : s.head < s.slots.length
      · simp only [fifoStep, if_neg ha, if_pos hh] at hstep
        injection hstep with h
        subst h
        constructor
        · simpa [List.length_set] using hlen
        · calc ((s.slots.set s.head a).countP fun p => p ≠ INVALID_PAGE)
              ≤ (s.slots.set s.head a).length := List.countP_le_length _
            _ = c := by simpa [List.length_set] using hlen
      · simp [fifoStep, if_neg ha, if_neg hh] at hstep
  · -- Optimal
    intro f s s' hle hstep
    cases f with
    | nil =>
      simp only [optStep] at hstep
      injection hstep with h
      subst h
      exact hle
    | cons a rest =>
      by_cases ha : a ∈ s.mem
      · simp only [optStep, if_pos ha] at hstep
        injection hstep with h
        subst h
        exact hle
      · by_cases hlt : s.mem.length < c
        · simp only [optStep, if_neg ha, if_pos hlt] at hstep
          injection hstep with h
          subst h
          have hnm : a ∉ s.mem := ha
          simp only [insertSet, if_neg hnm, List.length_append, List.length_cons,
            List.length_nil]
          omega
        · cases hcase : narrowGo (a :: rest) s.mem with
          | nil =>
            simp [optStep, if_neg ha, if_neg hlt, hcase] at hstep
          | cons v t =>
            simp only [optStep, if_neg ha, if_neg hlt, hcase] at hstep
            injection hstep with h
            subst h
            have hv : v ∈ s.mem :=
              narrowGo_subset (a :: rest) s.mem (hcase ▸ List.mem_cons_self v t)
            have hae : a ∉ s.mem.erase v := fun hmem => ha (List.mem_of_mem_erase hmem)
            simp only [insertSet, if_neg hae, List.length_append, List.length_cons,
              List.length_nil, List.length_erase_of_mem hv]
            have hpos : 1 ≤ s.mem.length := List.length_pos.mpr (List.ne_nil_of_mem hv)
            omega
  · -- Random: `set` preserves the vector's length
    intro rng s a s' hle hstep
    by_cases ha : a ∈ s.mem
    · simp only [randStep, if_pos ha] at hstep
      injection hstep with h
      subst h
      exact hle
    · by_cases hlt : s.mem.length < c
      · simp only [randStep, if_neg ha, if_pos hlt] at hstep
        injection hstep with h
        subst h
        simp only [List.length_append, List.length_cons, List.length_nil]
        omega
      · by_cases hz : s.mem.length = 0
        · rw [randStep, if_neg ha, if_neg hlt, if_pos hz] at hstep
          cases hstep
        · simp only [randStep, if_neg ha, if_neg hlt, if_neg hz] at hstep
          injection hstep with h
          subst h
          simpa [List.length_set] using hle
  · -- LRU
    intro s a hle
    by_cases hb : (s.cache.any fun e => e.1 = a) = true
    · rw [lruStep, if_pos hb]
      simpa [lruUpdate, List.length_map] using hle
    · rw [lruStep, if_neg hb]
      show (lruShrink c (s.cache ++ [(a, s.time)])).length ≤ c
      by_cases hfull : s.cache.length = c
      · obtain ⟨e, -, -, -, h4, h5⟩ :=
          lruShrink_overflow (c := c) (l := s.cache ++ [(a, s.time)])
            (by simp [hfull])
        rw [h4]
        exact le_of_eq h5
      · rw [lruShrink_of_le (by simp; omega)]
        simp only [List.length_append, List.length_cons, List.length_nil]
        omega
  · -- Clock
    intro s a s' hle hstep
    by_cases hb : (s.cache.any fun e => e.1 = a) = true
    · rw [clockStep, if_pos hb] at hstep
      injection hstep with h
      subst h
      simpa [clockTouch_length] using hle
    · by_cases hlt : s.cache.length < c
      · rw [clockStep, if_neg hb, if_pos hlt] at hstep
        injection hstep with h
        subst h
        simp only [List.length_append, List.length_cons, List.length_nil]
        omega
      · cases hcase : clockEvict a s.cache with
        | none =>
          rw [clockStep, if_neg hb, if_neg hlt, hcase] at hstep
          cases hstep
        | some r =>
          rw [clockStep, if_neg hb, if_neg hlt, hcase] at hstep
          injection hstep with h
          subst h
          simpa [clockEvict_length a s.cache r hcase] using hle
  · -- LRU overflow characterisation
    intro s a hmem hfull
    have hb : ¬ ((s.cache.any fun e => e.1 = a) = true) := by
      rw [any_key_iff]
      exact hmem
    obtain ⟨e, -, h2, h3, h4, h5⟩ :=
      lruShrink_overflow (c := c) (l := s.cache ++ [(a, s.time)]) (by simp [hfull])
    refine ⟨e, h2, h3, ?_, ?_⟩
    · rw [lruStep, if_neg hb]
      exact h4
    · rw [lruStep, if_neg hb]
      show (lruShrink c (s.cache ++ [(a, s.time)])).length = c
      rw [h4]
      exact h5

/-- C6 (witness): an LRU map holding one entry at capacity 1 receives a
missing page; exactly the older entry is evicted. -/
theorem resident_size_bounded_witness :
    (lruStep 1 ⟨[(7, 0)], 1, 0⟩ 9).cache.length ≤ 1 ∧
    ∃ e, e ∈ [((7 : Page), 0), ((9 : Page), 1)] ∧
      (∀ x ∈ [((7 : Page), 0), ((9 : Page), 1)], e.2 ≤ x.2) ∧
      (lruStep 1 ⟨[(7, 0)], 1, 0⟩ 9).cache = eraseEntry e [((7 : Page), 0), ((9 : Page), 1)] ∧
      (lruStep 1 ⟨[(7, 0)], 1, 0⟩ 9).cache.length = 1 :=
  ⟨(resident_size_bounded 1).2.2.2.1 ⟨[(7, 0)], 1, 0⟩ 9 (by decide),
   (resident_size_bounded 1).2.2.2.2.2 ⟨[(7, 0)], 1, 0⟩ 9 (by decide) (by decide)⟩

/-! ## Helper lemmas: at most one hit per access -/

lemma fifoRun_hits_le (future : List Page) :
    ∀ (s s' : FifoState), fifoRun future s = some s' → s'.hits ≤ s.hits + future.length := by
  induction future with
  | nil =>
    intro s s' h
    injection h with h
    subst h
    simp
  | cons a rest ih =>
    intro s s' h
    by_cases ha : a ∈ s.slots
    · rw [fifoRun, fifoStep, if_pos ha] at h
      have := ih _ _ h
      dsimp only at this
      simp only [List.length_cons]
      omega
    · by_cases hh : s.head < s.slots.length
      · rw [fifoRun, fifoStep, if_neg ha, if_pos hh] at h
        have := ih _ _ h
        dsimp only at this
        simp only [List.length_cons]
        omega
      · rw [fifoRun, fifoStep, if_neg ha, if_neg hh] at h
        cases h

lemma optRun_hits_le (c : Nat) (future : List Page) :
    ∀ (s s' : OptState), optRun c future s = some s' → s'.hits ≤ s.hits + future.length := by
  induction future with
  | nil =>
    intro s s' h
    injection h with h
    subst h
    simp
  | cons a rest ih =>
    intro s s' h
    by_cases ha : a ∈ s.mem
    · rw [optRun, optStep, if_pos ha] at h
      have := ih _ _ h
      dsimp only at this
      simp only [List.length_cons]
      omega
    · by_cases hlt : s.mem.length < c
      · rw [optRun, optStep, if_neg ha, if_pos hlt] at h
        have := ih _ _ h
        dsimp only at this
        simp only [List.length_cons]
        omega
      · cases hcase : narrowGo (a :: rest) s.mem with
        | nil =>
          rw [optRun, optStep, if_neg ha, if_neg hlt, hcase] at h
          cases h
        | cons v t =>
          rw [optRun, optStep, if_neg ha, if_neg hlt, hcase] at h
          have := ih _ _ h
          dsimp only at this
          simp only [List.length_cons]
          omega

lemma randRun_hits_le (c : Nat) (rng : Nat → Nat) (future : List Page) :
    ∀ (s s' : RandState), randRun c rng future s = some s' →
      s'.hits ≤ s.hits + future.length := by
  induction future with
  | nil =>
    intro s s' h
    injection h with h
    subst h
    simp
  | cons a rest ih =>
    intro s s' h
    by_cases ha : a ∈ s.mem
    · rw [randRun, randStep, if_pos ha] at h
      have := ih _ _ h
      dsimp only at this
      simp only [List.length_cons]
      omega
    · by_cases hlt : s.mem.length < c
      · rw [randRun, randStep, if_neg ha, if_pos hlt] at h
        have := ih _ _ h
        dsimp only at this
        simp only [List.length_cons]
        omega
      · by_cases hz : s.mem.length = 0
        · rw [randRun, randStep, if_neg ha, if_neg hlt, if_pos hz] at h
          cases h
        · rw [randRun, randStep, if_neg ha, if_neg hlt, if_neg hz] at h
          have := ih _ _ h
          dsimp only at this
          simp only [List.length_cons]
          omega

lemma lruRun_hits_le (c : Nat) (future : List Page) :
    ∀ s : LruState, (lruRun c future s).hits ≤ s.hits + future.length := by
  induction future with
  | nil =>
    intro s
    simp [lruRun]
  | cons a rest ih =>
    intro s
    have hstep : (lruStep c s a).hits ≤ s.hits + 1 := by
      by_cases hb : (s.cache.any fun e => e.1 = a) = true
      · rw [lruStep, if_pos hb]
      · rw [lruStep, if_neg hb]
        dsimp only
        omega
    have := ih (lruStep c s a)
    simp only [lruRun, List.length_cons]
    omega

lemma clockRun_hits_le (c : Nat) (future : List Page) :
    ∀ (s s' : ClockState), clockRun c future s = some s' →
      s'.hits ≤ s.hits + future.length := by
  induction future with
  | nil =>
    intro s s' h
    injection h with h
    subst h
    simp
  | cons a rest ih =>
    intro s s' h
    by_cases hb : (s.cache.any fun e => e.1 = a) = true
    · rw [clockRun, clockStep, if_pos hb] at h
      have := ih _ _ h
      dsimp only at this
      simp only [List.length_cons]
      omega
    · by_cases hlt : s.cache.length < c
      · rw [clockRun, clockStep, if_neg hb, if_pos hlt] at h
        have := ih _ _ h
        dsimp only at this
        simp only [List.length_cons]
        omega
      · cases hcase : clockEvict a s.cache with
        | none =>
          rw [clockRun, clockStep, if_neg hb, if_neg hlt, hcase] at h
          cases h
        | some r =>
          rw [clockRun, clockStep, if_neg hb, if_neg hlt, hcase] at h
          have := ih _ _ h
          dsimp only at this
          simp only [List.length_cons]
          omega

/-! ## C8: the hit count is between 0 and the workload length -/

/-- C8: whenever an evaluator returns a hit count it is at most the
workload length (it is a `Nat`, hence at least 0), and the empty workload
yields 0 hits from every evaluator at every capacity. -/
theorem hit_count_in_range :
    ∀ (w : List Page) (c : Nat),
      (∀ h, PRP_FIFO w c = some h → h ≤ w.length) ∧
      (∀ h, PRP_OPT w c = some h → h ≤ w.length) ∧
      (∀ rng h, PRP_RAND w c rng = some h → h ≤ w.length) ∧
      PRP_LRU w c ≤ w.length ∧
      (∀ h, PRP_CLOCK w c = some h → h ≤ w.length) ∧
      PRP_FIFO [] c = some 0 ∧ PRP_OPT [] c = some 0 ∧
      (∀ rng, PRP_RAND [] c rng = some 0) ∧ PRP_LRU [] c = 0 ∧
      PRP_CLOCK [] c = some 0 := by
  intro w c
  refine ⟨?_, ?_, ?_, ?_, ?_, rfl, rfl, fun _ => rfl, rfl, rfl⟩
  · intro h hmap
    obtain ⟨s', hrun, hh⟩ := Option.map_eq_some'.mp hmap
    have := fifoRun_hits_le w _ _ hrun
    dsimp only at this
    omega
  · intro h hmap
    obtain ⟨s', hrun, hh⟩ := Option.map_eq_some'.mp hmap
    have := optRun_hits_le c w _ _ hrun
    dsimp only at this
    omega
  · intro rng h hmap
    obtain ⟨s', hrun, hh⟩ := Option.map_eq_some'.mp hmap
    have := randRun_hits_le c rng w _ _ hrun
    dsimp only at this
    omega
  · have := lruRun_hits_le c w ⟨[], 0, 0⟩
    simpa [PRP_LRU] using this
  · intro h hmap
    obtain ⟨s', hrun, hh⟩ := Option.map_eq_some'.mp hmap
    have := clockRun_hits_le c w _ _ hrun
    dsimp only at this
    omega

/-- C8 (witness): on `[1,2,1,2]` with capacity 2, FIFO's returned hit count
2 is bounded by the workload length 4. -/
theorem hit_count_in_range_witness : (2 : Nat) ≤ 4 :=
  (hit_count_in_range [1, 2, 1, 2] 2).1 2 (by decide)

/-! ## Helper lemmas: characterising the Clock victim sweep -/

lemma clockSweepGo_all_true (a : Page) :
    ∀ l : List (Page × Bool), (l.all fun e => e.2) = true → clockSweepGo a l = none := by
  intro l
  induction l with
  | nil =>
    intro _
    rfl
  | cons e rest ih =>
    intro h
    simp only [List.all_cons, Bool.and_eq_true] at h
    simp [clockSweepGo, h.1, ih h.2]

lemma clockSweepGo_has_false (a : Page) :
    ∀ l : List (Page × Bool), (l.all fun e => e.2) = false →
      clockSweepGo a l =
        some ((l.takeWhile (fun e => e.2)).map (fun e => (e.1, false)) ++
          (a, true) :: (l.dropWhile (fun e => e.2)).tail) := by
  intro l
  induction l with
  | nil =>
    intro h
    simp at h
  | cons e rest ih =>
    intro h
    cases hb : e.2 with
    | true =>
      have hrest : (rest.all fun e => e.2) = false := by
        simpa [List.all_cons, hb] using h
      simp [clockSweepGo, hb, ih hrest, List.takeWhile_cons, List.dropWhile_cons]
    | false =>
      simp [clockSweepGo, hb, List.takeWhile_cons, List.dropWhile_cons]

/-! ## C4: the Clock sweep restarts at the buffer's start on every miss -/

/-- C4 (amended): the source's Clock evaluator keeps no hand across
accesses — on every full-cache miss the sweep starts at the buffer's first
entry: it clears the use bits of the leading run of set-bit entries and
overwrites the first clear-bit entry with `(page, true)`; when every use
bit is set it clears them all, falls back to the buffer's first entry
(the sweep's origin) and overwrites it.  The victim therefore depends only
on the buffer contents, never on any previously advanced hand; on
`[1,2,3,4,2,1,2]` with capacity 2 the evaluator returns 0 hits. -/
theorem clock_sweep_restarts_each_miss :
    (∀ a : Page, clockEvict a [] = none) ∧
    (∀ (a : Page) (e : Page × Bool) (rest : List (Page × Bool)),
       (((e :: rest).all fun x => x.2) = true) →
       clockEvict a (e :: rest) = some ((a, true) :: rest.map (fun x => (x.1, false)))) ∧
    (∀ (a : Page) (cache : List (Page × Bool)), ((cache.all fun x => x.2) = false) →
       clockEvict a cache =
         some ((cache.takeWhile (fun x => x.2)).map (fun x => (x.1, false)) ++
           (a, true) :: (cache.dropWhile (fun x => x.2)).tail)) ∧
    PRP_CLOCK [1, 2, 3, 4, 2, 1, 2] 2 = some 0 := by
  refine ⟨fun a => rfl, ?_, ?_, rfl⟩
  · intro a e rest h
    simp [clockEvict, clockSweepGo_all_true a _ h]
  · intro a cache h
    simp [clockEvict, clockSweepGo_has_false a cache h]

/-- C4 (witness): the two eviction shapes at concrete two-entry buffers. -/
theorem clock_sweep_restarts_each_miss_witness :
    clockEvict 9 [((1 : Page), true), (2, true)] = some [(9, true), (2, false)] ∧
    clockEvict 9 [((1 : Page), true), (2, false)] = some [(1, false), (9, true)] :=
  ⟨clock_sweep_restarts_each_miss.2.1 9 (1, true) [(2, true)] (by decide),
   clock_sweep_restarts_each_miss.2.2.1 9 [(1, true), (2, false)] (by decide)⟩

/-! ## C9: negative capacities are not rejected -/

/-- C9 (counterexample): the evaluators take `unsigned int memsize`, so a
caller passing capacity `-1` triggers the implicit conversion to
`2^32 - 1 = 4294967295`; `PRP_FIFO` then simply computes an ordinary hit
count — `[1,1]` yields `some 1` — instead of failing fast with an
invalid-argument condition (no error path exists in the source). -/
theorem negative_capacity_no_failfast :
    PRP_FIFO_ofInt [1, 1] (-1) = some 1 := by
  have h : toUnsigned32 (-1) = 4294967295 := by decide
  rw [PRP_FIFO_ofInt, h]
  exact PRP_FIFO_noPressure (by decide) (by decide)

/-- C9 (amended): a negative capacity is silently reinterpreted modulo
`2^32`; with capacity `-1` every evaluator sees the huge capacity
`4294967295`, so for any workload shorter than `2^32` accesses LRU (as one
representative) just returns the no-pressure hit count, signalling
nothing. -/
theorem negative_capacity_computes :
    ∀ w : List Page, w.length < 2 ^ 32 →
      PRP_LRU_ofInt w (-1) = w.length - (nubAcc [] w).length := by
  intro w hw
  have h : toUnsigned32 (-1) = 4294967295 := by decide
  rw [PRP_LRU_ofInt, h]
  apply PRP_LRU_noPressure
  have h2 := nubAcc_length_le w []
  simp only [List.length_nil] at h2
  have h3 : (2 : Nat) ^ 32 = 4294967296 := by norm_num
  rw [h3] at hw
  omega

/-- C9 (witness): the amended statement evaluated at `[1,1]`. -/
theorem negative_capacity_computes_witness :
    PRP_LRU_ofInt [1, 1] (-1) = 1 := by
  have h := negative_capacity_computes [1, 1] (by decide)
  exact h

/-! ## C1: the Optimal evaluator on the spec's reference workload -/

/-- C1 (counterexample): on the reference workload `[1,2,3,1,2,4,1,2,3]`
with capacity 2, `PRP_OPT` does not return 3 hits.  (At this input the hit
count is independent of the unordered-set iteration order the model fixes:
the narrowing scan leaves a single candidate at every eviction except the
one at position 7, and both residents that can be evicted there miss at the
final access anyway.) -/
theorem opt_reference_workload_not_three :
    PRP_OPT [1, 2, 3, 1, 2, 4, 1, 2, 3] 2 ≠ some 3 := by decide

/-- C1 (amended): `PRP_OPT` narrows its victim candidates with the forward
scan containing the precedence defect `count(workload[j] > 0)` and evicts
the first remaining candidate; on workload `[1,2,3,1,2,4,1,2,3]` with
capacity 2 it returns 2 hits — and the specification's own
furthest-next-occurrence rule also yields 2 hits, not 3. -/
theorem opt_reference_workload_two_hits :
    PRP_OPT [1, 2, 3, 1, 2, 4, 1, 2, 3] 2 = some 2 ∧
    OPT_spec [1, 2, 3, 1, 2, 4, 1, 2, 3] 2 = 2 := by
  exact ⟨by decide, by decide⟩

/-! ## C2: behaviour at capacity 0 -/

/-- C2: at capacity 0 on the non-empty workload `[1]`, only `PRP_LRU`
returns a hit count of 0; `PRP_FIFO` throws (`cachedPages.at(0)` on an
empty vector), and `PRP_OPT`, `PRP_RAND` and `PRP_CLOCK` reach undefined
behaviour (dereferencing an invalid iterator, or constructing
`uniform_int_distribution(0, -1)`), all modelled as `none`. -/
theorem capacity_zero_results :
    PRP_FIFO [1] 0 = none ∧ PRP_OPT [1] 0 = none ∧
    PRP_RAND [1] 0 (fun _ => 0) = none ∧ PRP_CLOCK [1] 0 = none ∧
    PRP_LRU [1] 0 = 0 :=
  ⟨rfl, rfl, rfl, rfl, rfl⟩

/-! ## C7: the random evaluator's result depends on its engine stream -/

/-- C7: two evaluations of `PRP_RAND` with the same workload and capacity
but different engine draw streams return different hit counts.  The source
seeds its engine from `std::time(NULL)` inside the call and takes no seed
parameter, so the stream — and hence the result — is wall-clock dependent
and not replayable by the caller. -/
theorem rand_depends_on_engine_stream :
    PRP_RAND [1, 2, 3, 1] 2 (fun _ => 0) = some 0 ∧
    PRP_RAND [1, 2, 3, 1] 2 (fun _ => 1) = some 1 :=
  ⟨rfl, rfl⟩

/-! ## C4 (counterexample): the Clock hand does not persist -/

/-- C4 (counterexample): on workload `[1,2,3,4,2,1,2]` with capacity 2 the
source's Clock evaluator returns 0 hits, while the evaluator described by
the claim — whose hand persists across accesses and is advanced past each
victim — returns 1 hit.  The source therefore does not implement the
claimed persistent-hand sweep. -/
theorem clock_hand_not_persistent :
    PRP_CLOCK [1, 2, 3, 4, 2, 1, 2] 2 = some 0 ∧
    CLOCK_spec [1, 2, 3, 4, 2, 1, 2] 2 = 1 :=
  ⟨rfl, rfl⟩

/-! ## C5 (counterexample): the FIFO sentinel breaks the no-pressure law -/

/-- C5 (counterexample): workload `[-1]` has one distinct page, so with
capacity 1 the claim predicts `length - distinct = 0` hits; but `-1` is
`PRP_FIFO`'s empty-slot sentinel, the initial slot array contains it, and
the single access is counted as a hit: the result is 1. -/
theorem fifo_sentinel_breaks_no_pressure :
    PRP_FIFO [-1] 1 = some 1 ∧
    ([-1] : List Page).length - (nubAcc [] [-1]).length = 0 :=
  ⟨rfl, rfl⟩

/-! ## C10: accesses to the sentinel page hit while a slot is empty -/

/-- C10: an empty FIFO slot holds the sentinel `INVALID_PAGE = -1`; as long
as some slot still holds the sentinel, an access to page `-1` is counted as
a hit and changes nothing except the hit counter (in particular it inserts
nothing); the workload `[-1]` with capacity 1 yields one hit. -/
theorem invalid_page_hits_on_empty_slots :
    (∀ s : FifoState, INVALID_PAGE ∈ s.slots →
      fifoStep s INVALID_PAGE = some { s with hits := s.hits + 1 }) ∧
    PRP_FIFO [INVALID_PAGE] 1 = some 1 := by
  constructor
  · intro s h
    simp [fifoStep, h]
  · rfl

/-- C10 (witness): the step property applied at the concrete state with one
empty slot. -/
theorem invalid_page_hits_on_empty_slots_witness :
    fifoStep ⟨[INVALID_PAGE], 0, 0⟩ INVALID_PAGE = some ⟨[INVALID_PAGE], 0, 1⟩ :=
  invalid_page_hits_on_empty_slots.1 ⟨[INVALID_PAGE], 0, 0⟩ (by decide)

end PolicyEval
